import Mathlib

/-!
Verification of the lazyhydra override manager (`main.go`).

Go strings are byte sequences; we embed them as `List Nat` with every byte
`< 256` where it matters.  Pure fragments of the program (the override-string
builder, the persisted-state codec, the registry mutations) are translated
into Lean functions; filesystem reads and external library calls
(`yaml.Unmarshal`) appear as explicit parameters.
-/

namespace LazyHydra

/-! ## Definitions -/

/-- Go strings, embedded as byte lists. -/
abbrev GoStr := List Nat

/-- ASCII string literal as a byte list (all literals used are ASCII, where
`Char.toNat` coincides with the UTF-8 byte). -/
def strLit (s : String) : GoStr := s.data.map Char.toNat

/-- The standard base64 alphabet, index to byte. -/
def b64encChar (n : Nat) : Nat :=
  if n < 26 then 65 + n
  else if n < 52 then 97 + (n - 26)
  else if n < 62 then 48 + (n - 52)
  else if n = 62 then 43
  else 47

/-- Inverse alphabet lookup, byte to index. -/
def b64decChar (c : Nat) : Option Nat :=
  if 65 ≤ c ∧ c ≤ 90 then some (c - 65)
  else if 97 ≤ c ∧ c ≤ 122 then some (c - 97 + 26)
  else if 48 ≤ c ∧ c ≤ 57 then some (c - 48 + 52)
  else if c = 43 then some 62
  else if c = 47 then some 63
  else none

/-- `base64.StdEncoding.EncodeToString`: three input bytes become four
alphabet bytes; a final group of one or two bytes is padded with `=` (61). -/
def b64encode : List Nat → List Nat
  | [] => []
  | [a] => [b64encChar (a / 4), b64encChar (a % 4 * 16), 61, 61]
  | [a, b] => [b64encChar (a / 4), b64encChar (a % 4 * 16 + b / 16),
               b64encChar (b % 16 * 4), 61]
  | a :: b :: c :: rest =>
      b64encChar (a / 4) :: b64encChar (a % 4 * 16 + b / 16) ::
      b64encChar (b % 16 * 4 + c / 64) :: b64encChar (c % 64) :: b64encode rest

/-- `base64.StdEncoding.DecodeString`: input length must be a multiple of
four, padding may appear only in the final group. -/
def b64decode : List Nat → Option (List Nat)
  | [] => some []
  | c1 :: c2 :: c3 :: c4 :: rest =>
      if rest = [] ∧ c3 = 61 ∧ c4 = 61 then
        match b64decChar c1, b64decChar c2 with
        | some g1, some g2 => some [g1 * 4 + g2 / 16]
        | _, _ => none
      else if rest = [] ∧ c4 = 61 then
        match b64decChar c1, b64decChar c2, b64decChar c3 with
        | some g1, some g2, some g3 =>
            some [g1 * 4 + g2 / 16, g2 % 16 * 16 + g3 / 4]
        | _, _, _ => none
      else
        match b64decChar c1, b64decChar c2, b64decChar c3, b64decChar c4,
              b64decode rest with
        | some g1, some g2, some g3, some g4, some bs =>
            some ((g1 * 4 + g2 / 16) :: (g2 % 16 * 16 + g3 / 4) ::
                  (g3 % 4 * 64 + g4) :: bs)
        | _, _, _, _, _ => none
  | _ => none

/-- `strings.Split(s, sep)` for a single-byte separator. -/
def splitByte (sep : Nat) : GoStr → List GoStr
  | [] => [[]]
  | c :: cs =>
    if c = sep then [] :: splitByte sep cs
    else match splitByte sep cs with
      | [] => [[c]]
      | t :: ts => (c :: t) :: ts

/-- `strings.Split(s, ",")` — splitting on the comma byte 44. -/
def splitComma (s : GoStr) : List GoStr := splitByte 44 s

/-- Bytes Go's `strings.TrimSpace` treats as (ASCII) white space.  (Go also
trims a few multi-byte Unicode spaces; every byte sequence considered in this
development is plain ASCII, where the two functions agree.) -/
def isSpaceByte (c : Nat) : Bool :=
  c = 32 || c = 9 || c = 10 || c = 11 || c = 12 || c = 13

/-- Trim the bytes satisfying `p` from both ends of `s`
(`strings.Trim` / `strings.TrimSpace`). -/
def trimBy (p : Nat → Bool) (s : GoStr) : GoStr :=
  ((s.dropWhile p).reverse.dropWhile p).reverse

/-- `strings.TrimSpace`. -/
def trimSpace (s : GoStr) : GoStr := trimBy isSpaceByte s

/-- `strings.Trim(s, "\"'")` — byte 34 is `"` and byte 39 is `'`. -/
def trimQuotes (s : GoStr) : GoStr := trimBy (fun c => c = 34 || c = 39) s

/-- `strings.Join(parts, sep)` for a single-byte separator. -/
def joinSep (sep : Nat) : List GoStr → GoStr
  | [] => []
  | [p] => p
  | p :: q :: ps => p ++ sep :: joinSep sep (q :: ps)

/-- `strings.ReplaceAll(s, "\n", " ")`. -/
def replaceNLBySpace (s : GoStr) : GoStr :=
  s.map (fun c => if c = 10 then 32 else c)

/-- `strings.SplitN(s, sep, 2)[0]`: the text before the first occurrence of
`sep` (the whole of `s` when `sep` does not occur). -/
def beforeFirst (sep : GoStr) : GoStr → GoStr
  | [] => []
  | c :: cs => if sep.isPrefixOf (c :: cs) then [] else c :: beforeFirst sep cs

/-- `filepath.Join(a, b)` for the already-clean paths this program builds. -/
def joinPath (a b : GoStr) : GoStr := a ++ 47 :: b

/-- `filepath.Dir` on a path of the form `dir ++ "/" ++ base`
(drops everything from the last slash on). -/
def dirOf (p : GoStr) : GoStr :=
  ((p.reverse.dropWhile (fun c => c ≠ 47)).drop 1).reverse

/-- Go `<` on strings: lexicographic, byte-wise. -/
def strLt : GoStr → GoStr → Bool
  | _, [] => false
  | [], _ :: _ => true
  | a :: as, b :: bs => a < b || (a = b && strLt as bs)

/-- `type Override struct` from `main.go`. -/
structure Override where
  Name : GoStr
  «Type» : GoStr
  Block : GoStr
  File : GoStr
  ModulePath : GoStr
  Module : GoStr
  Content : GoStr
  ApplyInfo : GoStr
  FolderPath : GoStr
  deriving DecidableEq, Repr

/-- The `applied map[string]bool` field of `App`; Go map lookup yields `false`
for an absent key, so the map is a Boolean-valued function. -/
abbrev AppliedMap := GoStr → Bool

/-- `app.applied[name] = true`. -/
def mapSet (m : AppliedMap) (k : GoStr) : AppliedMap :=
  fun x => if x = k then true else m x

/-- `delete(app.applied, name)`. -/
def mapDel (m : AppliedMap) (k : GoStr) : AppliedMap :=
  fun x => if x = k then false else m x

/-- The comparison `sort.Slice(app.overrides, func(i, j) { Name < Name })`
sorts by; `sort.Slice` is an unstable comparison sort, so only
order-insensitive consequences (permutation, sortedness) are proved about it. -/
def nameLe (a b : Override) : Bool := !(strLt b.Name a.Name)

/-- The re-sort by `Name` performed after load, create, and rename. -/
def sortByName (l : List Override) : List Override := l.mergeSort nameLe

/-- A byte of the base64 alphabet (including the padding byte `=`). -/
def isB64Byte (x : Nat) : Bool :=
  x = 61 || x = 43 || x = 47 || (48 ≤ x && x ≤ 57) || (65 ≤ x && x ≤ 90) ||
    (97 ≤ x && x ≤ 122)

/-- `buildOverrideString`: one fragment `<Type><modulePath>@<Block>=<module>`
per applied override, in collection order, joined with newline (byte 10);
`@` is byte 64 and `=` is byte 61. -/
def buildOverrideString (overrides : List Override) (applied : AppliedMap) :
    GoStr :=
  joinSep 10 ((overrides.filter (fun o => applied o.Name)).map (fun o =>
    let modulePath :=
      if o.ModulePath = [] then strLit "overrides/" ++ o.Name else o.ModulePath
    let module := if o.Module = [] then strLit "override" else o.Module
    o.«Type» ++ modulePath ++ [64] ++ o.Block ++ [61] ++ module))

/-- One scanner token: `bufio.ScanLines` drops a single trailing `\r`. -/
def stripCR (l : GoStr) : GoStr :=
  if l.getLast? = some 13 then l.dropLast else l

/-- The sequence of lines `bufio.Scanner` yields on a file. -/
def splitLinesGo (s : GoStr) : List GoStr :=
  if s = [] then []
  else
    let ts := splitByte 10 s
    (if ts.getLast? = some [] then ts.dropLast else ts).map stripCR

/-- The managed-line prefix `export <KEY>=` (byte 61 is `=`). -/
def exportPrefix (key : GoStr) : GoStr := strLit "export " ++ key ++ [61]

/-- The fixed key of the second managed line. -/
def hydraStrKey : GoStr := strLit "HYDRA_OVERRIDE_STR"

/-- The default `env_var_name` from `DefaultConfig`. -/
def defaultEnvVarName : GoStr := strLit "HYDRA_OVERRIDES"

/-- The `lines` accumulator of `savePersistedState` after the filtering scan
of the existing file (`none` = the file could not be opened): prior managed
assignments for either recognized key are dropped, everything else is kept in
order. -/
def keptLines (key : GoStr) (existingFile : Option GoStr) : List GoStr :=
  match existingFile with
  | none => []
  | some f => (splitLinesGo f).filter (fun line =>
      !((exportPrefix key).isPrefixOf line) &&
      !((exportPrefix hydraStrKey).isPrefixOf line))

/-- The `appliedNames` slice of `savePersistedState`: the names of the
applied overrides, in collection order. -/
def appliedNamesOf (overrides : List Override) (applied : AppliedMap) :
    List GoStr :=
  (overrides.filter (fun o => applied o.Name)).map Override.Name

/-- The managed line `export <KEY>="<base64 of comma-joined names>"`. -/
def appliedNamesLine (key : GoStr) (names : List GoStr) : GoStr :=
  exportPrefix key ++ [34] ++ b64encode (joinSep 44 names) ++ [34]

/-- The managed line `export HYDRA_OVERRIDE_STR="<flattened string>"`. -/
def overrideStrLine (overrides : List Override) (applied : AppliedMap) :
    GoStr :=
  exportPrefix hydraStrKey ++ [34] ++
    replaceNLBySpace (buildOverrideString overrides applied) ++ [34]

/-- The full line list `savePersistedState` writes: kept lines, then the
applied-names line (only when some applied name exists), then — always — the
override-string line. -/
def savedLines (key : GoStr) (overrides : List Override)
    (applied : AppliedMap) (existingFile : Option GoStr) : List GoStr :=
  (if appliedNamesOf overrides applied = [] then keptLines key existingFile
   else keptLines key existingFile ++
     [appliedNamesLine key (appliedNamesOf overrides applied)]) ++
  [overrideStrLine overrides applied]

/-- `savePersistedState`, as a function from the previous file content to the
written file content (`strings.Join(lines, "\n") + "\n"`).  The trailing
best-effort `direnv allow` has no effect on the file and is not modelled. -/
def savePersistedStateFile (key : GoStr) (overrides : List Override)
    (applied : AppliedMap) (existingFile : Option GoStr) : GoStr :=
  joinSep 10 (savedLines key overrides applied existingFile) ++ [10]

/-- The loop body of `loadPersistedState` over the decoded, comma-split
names: trim each and record the non-empty ones. -/
def addDecodedNames : List GoStr → AppliedMap → AppliedMap
  | [], applied => applied
  | n :: ns, applied =>
    let t := trimSpace n
    addDecodedNames ns (if t = [] then applied else mapSet applied t)

/-- The scan loop of `loadPersistedState`: the first line with the managed
prefix is unquoted; an empty value short-circuits, a non-base64 value is the
`CorruptPersistedState` error, otherwise the decoded names are applied. -/
def scanPersistedLines (key : GoStr) (applied : AppliedMap) :
    List GoStr → Except Unit AppliedMap
  | [] => .ok applied
  | line :: rest =>
    if (exportPrefix key).isPrefixOf line then
      let value := trimQuotes (line.drop (exportPrefix key).length)
      if value = [] then .ok applied
      else
        match b64decode value with
        | none => .error ()
        | some decoded => .ok (addDecodedNames (splitComma decoded) applied)
    else scanPersistedLines key applied rest

/-- `loadPersistedState` on a file content (`none` = missing file, which is
not an error and leaves the applied map unchanged). -/
def loadPersistedStateFile (key : GoStr) (file : Option GoStr)
    (applied : AppliedMap) : Except Unit AppliedMap :=
  match file with
  | none => .ok applied
  | some f => scanPersistedLines key applied (splitLinesGo f)

/-- The anonymous frontmatter struct of `loadOverrides` (`yaml` tags
`type`, `block`, `file`, `module_path`, `module`). -/
structure Meta where
  type : GoStr
  block : GoStr
  file : GoStr
  module_path : GoStr
  module : GoStr
  deriving DecidableEq, Repr

/-- `yaml.Unmarshal` on the frontmatter text, abstract: `none` is a parse
error, `some m` the parsed (string-valued) fields. -/
abbrev YamlParser := GoStr → Option Meta

/-- One entry of `os.ReadDir` on the overrides root, together with the
outcome of reading its two files (`none` = `os.ReadFile` failed). -/
structure DirEntry where
  name : GoStr
  isDir : Bool
  applyContent : Option GoStr
  overrideContent : Option GoStr
  deriving DecidableEq, Repr

/-- The frontmatter step shared by `loadOverrides` and `reloadOverride`:
if the document starts with `---`, parse the text between the leading `---`
and the next `---` (`strings.SplitN(content[3:], "---", 2)[0]`). -/
def parseFrontmatter (yamlParse : YamlParser) (content : GoStr) : Option Meta :=
  if (strLit "---").isPrefixOf content then
    yamlParse (beforeFirst (strLit "---") (content.drop 3))
  else none

/-- The per-entry body of the `loadOverrides` loop: `none` when the entry is
skipped (not a directory, or `apply.md` unreadable); a failed frontmatter
parse leaves the parsed fields at their zero values. -/
def loadOne (dir : GoStr) (yamlParse : YamlParser) (e : DirEntry) :
    Option Override :=
  if e.isDir = false then none
  else
    match e.applyContent with
    | none => none
    | some applyContent =>
      let o : Override :=
        { Name := e.name, FolderPath := joinPath dir e.name,
          ApplyInfo := applyContent, «Type» := [], Block := [], File := [],
          ModulePath := [], Module := [], Content := [] }
      let o :=
        match parseFrontmatter yamlParse applyContent with
        | some m => { o with
            «Type» := m.type,
            Block := m.block,
            File := m.file,
            ModulePath := m.module_path,
            Module := m.module }
        | none => o
      some (match e.overrideContent with
        | some c => { o with Content := c }
        | none => o)

/-- `loadOverrides`: fails only when the root listing itself is unavailable
(`os.ReadDir` error, modelled as `listing = none`); otherwise appends the
surviving entries to the collection and sorts by `Name`. -/
def loadOverrides (yamlParse : YamlParser) (dir : GoStr)
    (listing : Option (List DirEntry)) (prev : List Override) :
    Except Unit (List Override) :=
  match listing with
  | none => .error ()
  | some entries =>
    .ok (sortByName (prev ++ entries.filterMap (loadOne dir yamlParse)))

/-- A filesystem read, path to content (`none` = `os.ReadFile` failed). -/
abbrev FileSys := GoStr → Option GoStr

/-- The body of `reloadOverride` on its target.  Note the Go code re-parses
the frontmatter into a struct with only `Type`, `Block`, `File` — the
projection of the same `yaml.Unmarshal` — so `ModulePath` and `Module` are
left as they were. -/
def reloadOne (yamlParse : YamlParser) (fs : FileSys) (o : Override) :
    Override :=
  let o1 :=
    match fs (joinPath o.FolderPath (strLit "apply.md")) with
    | none => o
    | some content =>
      let o' := { o with ApplyInfo := content }
      match parseFrontmatter yamlParse content with
      | some m => { o' with
          «Type» := m.type,
          Block := m.block,
          File := m.file }
      | none => o'
  match fs (joinPath o1.FolderPath (strLit "override.yaml")) with
  | none => o1
  | some c => { o1 with Content := c }

/-- `reloadOverride name`: the first collection entry with that `Name` is
re-read from disk in place; everything else is untouched. -/
def reloadOverride (yamlParse : YamlParser) (fs : FileSys) (name : GoStr) :
    List Override → List Override
  | [] => []
  | o :: os =>
    if o.Name = name then reloadOne yamlParse fs o :: os
    else o :: reloadOverride yamlParse fs name os

/-- `getAvailableOverrides`. -/
def getAvailableOverrides (overrides : List Override) (applied : AppliedMap) :
    List Override :=
  overrides.filter (fun o => !applied o.Name)

/-- `getAppliedOverrides`. -/
def getAppliedOverrides (overrides : List Override) (applied : AppliedMap) :
    List Override :=
  overrides.filter (fun o => applied o.Name)

/-- `toggleOverride`: panel 0 applies the override selected in the available
list, panel 1 un-applies the one selected in the applied list; an
out-of-range cursor is a no-op.  (The follow-up save and refresh do not touch
the applied map.) -/
def toggleOverride (overrides : List Override) (applied : AppliedMap)
    (currentPanelIdx : Nat) (idx : Nat) : AppliedMap :=
  if currentPanelIdx = 0 then
    match (getAvailableOverrides overrides applied)[idx]? with
    | some o => mapSet applied o.Name
    | none => applied
  else if currentPanelIdx = 1 then
    match (getAppliedOverrides overrides applied)[idx]? with
    | some o => mapDel applied o.Name
    | none => applied
  else applied

/-- The in-memory removal loop of `deleteSelectedOverride`: drop the first
entry with the given name. -/
def removeFirstByName (name : GoStr) : List Override → List Override
  | [] => []
  | o :: os => if o.Name = name then os else o :: removeFirstByName name os

/-- `deleteSelectedOverride` acting on the selected override.  `removeAllOk`
stands for success of `os.RemoveAll`; the Go code discards that error value
and returns nothing, so the result cannot depend on it and there is no error
channel to surface it on. -/
def deleteSelectedOverride (overrides : List Override) (applied : AppliedMap)
    (selected : Override) (removeAllOk : Bool) : List Override × AppliedMap :=
  (removeFirstByName selected.Name overrides, mapDel applied selected.Name)

/-- `renameSelectedOverride`, with the collection decomposed around the
rename target (`app.renameTarget` aliases one element of `app.overrides`).
`renameOk` stands for success of `os.Rename`, which runs first; on failure
the function returns before any in-memory mutation. -/
def renameSelectedOverride (pre post : List Override) (target : Override)
    (applied : AppliedMap) (newName : GoStr) (renameOk : Bool) :
    List Override × AppliedMap :=
  if renameOk = false then (pre ++ target :: post, applied)
  else
    let oldName := target.Name
    let newPath := joinPath (dirOf target.FolderPath) newName
    let target' := { target with Name := newName, FolderPath := newPath }
    let applied' :=
      if applied oldName then mapSet (mapDel applied oldName) newName
      else applied
    (sortByName (pre ++ target' :: post), applied')

/-- The `apply.md` template written by `createNewOverride`. -/
def applyTemplate : GoStr := strLit "---\ntype: \"\"\nblock: \"\"\n---\n"

/-- `createNewOverride`.  `mkdirOk` stands for success of `os.MkdirAll` (on
failure the function returns before mutating the collection); the two
`os.WriteFile` error values are discarded.  Note there is no check that
`name` is absent from the collection. -/
def createNewOverride (overrides : List Override) (dir : GoStr) (name : GoStr)
    (mkdirOk : Bool) : List Override :=
  if mkdirOk = false then overrides
  else
    sortByName (overrides ++
      [{ Name := name, «Type» := [], Block := [], File := [], ModulePath := [],
         Module := [], Content := [], ApplyInfo := applyTemplate,
         FolderPath := joinPath dir name }])

/-- An override whose name `"a "` ends in a space (byte list `[97, 32]`). -/
def trailingSpaceOv : Override :=
  { Name := [97, 32], «Type» := strLit "+", Block := strLit "log.level",
    File := [], ModulePath := [], Module := [], Content := [],
    ApplyInfo := [], FolderPath := strLit "/overrides/a " }

/-- An applied map holding exactly the name `"a "`. -/
def trailingSpaceAp : AppliedMap := fun n => n == ([97, 32] : GoStr)

/-- An override named `alpha` with merge type and block `log.level`. -/
def alphaOv : Override :=
  { Name := strLit "alpha", «Type» := strLit "+", Block := strLit "log.level",
    File := [], ModulePath := [], Module := [], Content := [],
    ApplyInfo := [], FolderPath := strLit "/overrides/alpha" }

/-- An override named `beta` with replace type and block `log.level`. -/
def betaOv : Override :=
  { Name := strLit "beta", «Type» := strLit "=", Block := strLit "log.level",
    File := [], ModulePath := [], Module := [], Content := [],
    ApplyInfo := [], FolderPath := strLit "/overrides/beta" }

/-- An applied map holding exactly the name `alpha`. -/
def alphaOnlyAp : AppliedMap := fun n => n == strLit "alpha"

/-- An override whose name `"b "` ends in a space (byte list `[98, 32]`). -/
def trailingSpaceOvB : Override :=
  { Name := [98, 32], «Type» := strLit "+", Block := strLit "log.level",
    File := [], ModulePath := [], Module := [], Content := [],
    ApplyInfo := [], FolderPath := strLit "/overrides/b " }

/-- An applied map holding the registry name `"b "` and the unregistered
name `ghost`. -/
def c10Ap : AppliedMap :=
  fun n => n == ([98, 32] : GoStr) || n == strLit "ghost"

/-- An applied map holding the registry name `alpha` and the unregistered
name `ghost`. -/
def c10WitnessAp : AppliedMap :=
  fun n => n == strLit "alpha" || n == strLit "ghost"

/-- The override-string builder as the specification words it: walk the
collection in order, emit one fragment `<Type><modulePath>@<Block>=<module>`
per applied override (with the two defaults), join with newline.  Spec-side
definition for the refinement proof of C2; compare `buildOverrideString`,
which is translated from the Go loop. -/
def specOverrideFragments (applied : AppliedMap) : List Override → List GoStr
  | [] => []
  | o :: os =>
    if applied o.Name then
      (o.«Type» ++
        (if o.ModulePath = [] then strLit "overrides/" ++ o.Name
         else o.ModulePath) ++ [64] ++ o.Block ++ [61] ++
        (if o.Module = [] then strLit "override" else o.Module)) ::
        specOverrideFragments applied os
    else specOverrideFragments applied os

/-- Newline-join of the spec-side fragments. -/
def buildOverrideStringSpec (overrides : List Override)
    (applied : AppliedMap) : GoStr :=
  joinSep 10 (specOverrideFragments applied overrides)

/-- The invariant of C3: every applied name is the name of some collection
entry. -/
def appliedSubset (overrides : List Override) (applied : AppliedMap) : Prop :=
  ∀ n, applied n = true → n ∈ overrides.map Override.Name

/-- A persisted-state file holding only the applied name `ghost`. -/
def ghostFile : GoStr :=
  joinSep 10 [appliedNamesLine defaultEnvVarName [strLit "ghost"]] ++ [10]

/-- The override record `createNewOverride` appends for the name `alpha`
under root `/overrides`. -/
def createdAlphaOv : Override :=
  { Name := strLit "alpha", «Type» := [], Block := [], File := [],
    ModulePath := [], Module := [], Content := [],
    ApplyInfo := applyTemplate,
    FolderPath := joinPath (strLit "/overrides") (strLit "alpha") }

/-- A directory entry named `alpha` with a metadata file present. -/
def alphaEntry : DirEntry :=
  { name := strLit "alpha", isDir := true,
    applyContent := some applyTemplate, overrideContent := none }

/-- A directory entry with a content file but no metadata file. -/
def contentOnlyEntry : DirEntry :=
  { name := strLit "noapply", isDir := true, applyContent := none,
    overrideContent := some (strLit "x: 1") }

/-- An `apply.md` content whose frontmatter text is `X`. -/
def c9Apply : GoStr := strLit "---X---\nbody"

/-- The parse of frontmatter `X`: all five recognized fields present. -/
def c9Meta : Meta :=
  { type := strLit "+", block := strLit "b", file := strLit "f",
    module_path := strLit "new", module := strLit "m" }

/-- A parser that recognizes exactly the frontmatter text `X`. -/
def c9Yp : YamlParser :=
  fun s => if s = strLit "X" then some c9Meta else none

/-- A registry entry named `n` whose in-memory `ModulePath`/`Module` predate
an external edit of its `apply.md`. -/
def c9Ov : Override :=
  { Name := strLit "n", «Type» := [], Block := [], File := [],
    ModulePath := strLit "old", Module := strLit "oldm", Content := [],
    ApplyInfo := [], FolderPath := strLit "/o/n" }

/-- A filesystem serving the edited `apply.md` and an `override.yaml` for
`c9Ov`'s folder. -/
def c9Fs : FileSys :=
  fun p =>
    if p = joinPath (strLit "/o/n") (strLit "apply.md") then some c9Apply
    else if p = joinPath (strLit "/o/n") (strLit "override.yaml") then
      some (strLit "y")
    else none

/-- The directory entry a fresh `loadOverrides` scan would see for the same
folder state. -/
def c9Entry : DirEntry :=
  { name := strLit "n", isDir := true, applyContent := some c9Apply,
    overrideContent := some (strLit "y") }

/-! ## Theorems -/

theorem b64decChar_encChar : ∀ n < 64, b64decChar (b64encChar n) = some n := by
  decide

theorem b64encChar_ne_61 : ∀ n < 64, b64encChar n ≠ 61 := by decide

theorem b64encChar_mem_alphabet :
    ∀ n < 64, b64encChar n = 43 ∨ b64encChar n = 47 ∨
      (48 ≤ b64encChar n ∧ b64encChar n ≤ 57) ∨
      (65 ≤ b64encChar n ∧ b64encChar n ≤ 90) ∨
      (97 ≤ b64encChar n ∧ b64encChar n ≤ 122) := by
  decide

theorem b64encode_ne_nil {s : List Nat} (h : s ≠ []) : b64encode s ≠ [] := by
  match s with
  | [] => exact absurd rfl h
  | [a] => simp [b64encode]
  | [a, b] => simp [b64encode]
  | a :: b :: c :: rest => simp [b64encode]

/-- Round trip of the base64 codec on byte sequences. -/
theorem b64decode_encode : ∀ (s : List Nat), (∀ x ∈ s, x < 256) →
    b64decode (b64encode s) = some s
  | [], _ => rfl
  | [a], h => by
    have ha : a < 256 := h a (by simp)
    have h1 := b64decChar_encChar (a / 4) (by omega)
    have h2 := b64decChar_encChar (a % 4 * 16) (by omega)
    simp only [b64encode, b64decode]
    rw [if_pos (by simp), h1, h2]
    simp only [Option.some.injEq, List.cons.injEq, and_true]
    omega
  | [a, b], h => by
    have ha : a < 256 := h a (by simp)
    have hb : b < 256 := h b (by simp)
    have h1 := b64decChar_encChar (a / 4) (by omega)
    have h2 := b64decChar_encChar (a % 4 * 16 + b / 16) (by omega)
    have h3 := b64decChar_encChar (b % 16 * 4) (by omega)
    have hne := b64encChar_ne_61 (b % 16 * 4) (by omega)
    simp only [b64encode, b64decode]
    rw [if_neg (by simp [hne]), if_pos (by simp), h1, h2, h3]
    simp only [Option.some.injEq, List.cons.injEq, and_true]
    omega
  | a :: b :: c :: rest, h => by
    have ha : a < 256 := h a (by simp)
    have hb : b < 256 := h b (by simp)
    have hc : c < 256 := h c (by simp)
    have h1 := b64decChar_encChar (a / 4) (by omega)
    have h2 := b64decChar_encChar (a % 4 * 16 + b / 16) (by omega)
    have h3 := b64decChar_encChar (b % 16 * 4 + c / 64) (by omega)
    have h4 := b64decChar_encChar (c % 64) (by omega)
    have hne3 := b64encChar_ne_61 (b % 16 * 4 + c / 64) (by omega)
    have hne4 := b64encChar_ne_61 (c % 64) (by omega)
    have ih := b64decode_encode rest (fun x hx => h x (by simp [hx]))
    simp only [b64encode, b64decode]
    rw [if_neg (by simp [hne3]), if_neg (by simp [hne4]), h1, h2, h3, h4, ih]
    simp only [Option.some.injEq, List.cons.injEq, and_true]
    refine ⟨by omega, by omega, by omega⟩

theorem strLt_trans : ∀ {a b c : GoStr},
    strLt a b = true → strLt b c = true → strLt a c = true
  | _, [], _, hab, _ => by simp [strLt] at hab
  | _, _ :: _, [], _, hbc => by simp [strLt] at hbc
  | [], _ :: _, _ :: _, _, _ => by simp [strLt]
  | x :: xs, y :: ys, z :: zs, hab, hbc => by
    simp only [strLt, Bool.or_eq_true, Bool.and_eq_true, decide_eq_true_eq]
      at hab hbc ⊢
    rcases hab with h1 | ⟨rfl, h1⟩ <;> rcases hbc with h2 | ⟨rfl, h2⟩
    · exact Or.inl (Nat.lt_trans h1 h2)
    · exact Or.inl h1
    · exact Or.inl h2
    · exact Or.inr ⟨rfl, strLt_trans h1 h2⟩

theorem strLt_connex : ∀ {a b : GoStr},
    strLt a b = false → strLt b a = false → a = b
  | [], [], _, _ => rfl
  | [], _ :: _, hab, _ => by simp [strLt] at hab
  | _ :: _, [], _, hba => by simp [strLt] at hba
  | x :: xs, y :: ys, hab, hba => by
    simp only [strLt, Bool.or_eq_false_iff, Bool.and_eq_false_iff,
      decide_eq_false_iff_not] at hab hba
    obtain ⟨h1, h2⟩ := hab
    obtain ⟨h3, h4⟩ := hba
    have hxy : x = y := by omega
    subst hxy
    rcases h2 with h2 | h2
    · exact absurd rfl h2
    · rcases h4 with h4 | h4
      · exact absurd rfl h4
      · exact congrArg (x :: ·) (strLt_connex h2 h4)

theorem nameLe_trans : ∀ (a b c : Override),
    nameLe a b = true → nameLe b c = true → nameLe a c = true := by
  intro a b c hab hbc
  simp only [nameLe, Bool.not_eq_true'] at hab hbc ⊢
  cases hca : strLt c.Name a.Name
  · rfl
  · exfalso
    cases hab2 : strLt a.Name b.Name
    · have := strLt_connex hab2 hab
      rw [this] at hca
      rw [hca] at hbc
      simp at hbc
    · have := strLt_trans hca hab2
      rw [this] at hbc
      simp at hbc

theorem strLt_irrefl : ∀ (a : GoStr), strLt a a = false
  | [] => rfl
  | x :: xs => by simp [strLt, strLt_irrefl xs]

theorem nameLe_total : ∀ (a b : Override),
    (nameLe a b || nameLe b a) = true := by
  intro a b
  simp only [nameLe, Bool.or_eq_true, Bool.not_eq_true']
  cases hba : strLt b.Name a.Name
  · exact Or.inl rfl
  · cases hab : strLt a.Name b.Name
    · exact Or.inr rfl
    · have := strLt_trans hab hba
      rw [strLt_irrefl] at this
      exact absurd this (by simp)

theorem sortByName_perm (l : List Override) : List.Perm (sortByName l) l :=
  List.mergeSort_perm l nameLe

theorem sortByName_sorted (l : List Override) :
    (sortByName l).Pairwise (fun a b => nameLe a b = true) :=
  List.sorted_mergeSort nameLe_trans nameLe_total l

theorem splitByte_ne_nil (sep : Nat) : ∀ (s : GoStr), splitByte sep s ≠ []
  | [] => by simp [splitByte]
  | c :: cs => by
    have := splitByte_ne_nil sep cs
    simp only [splitByte]
    split
    · simp
    · split
      · simp
      · simp

theorem splitByte_of_not_mem {sep : Nat} : ∀ {s : GoStr}, sep ∉ s →
    splitByte sep s = [s]
  | [], _ => rfl
  | c :: cs, h => by
    have hc : c ≠ sep := fun hc => h (hc ▸ List.mem_cons_self c cs)
    have ih := splitByte_of_not_mem (fun hm => h (List.mem_cons_of_mem c hm))
    simp only [splitByte, if_neg hc, ih]

theorem splitByte_append_sep {sep : Nat} : ∀ {p : GoStr} (t : GoStr),
    sep ∉ p → splitByte sep (p ++ sep :: t) = p :: splitByte sep t
  | [], t, _ => by simp [splitByte]
  | c :: cs, t, h => by
    have hc : c ≠ sep := fun hc => h (hc ▸ List.mem_cons_self c cs)
    have ih := splitByte_append_sep t (fun hm => h (List.mem_cons_of_mem c hm))
    simp only [List.cons_append, splitByte, if_neg hc, List.append_eq, ih]

theorem splitByte_joinSep {sep : Nat} : ∀ {parts : List GoStr},
    parts ≠ [] → (∀ p ∈ parts, sep ∉ p) →
    splitByte sep (joinSep sep parts) = parts
  | [], h, _ => absurd rfl h
  | [p], _, hp => by
    simp only [joinSep]
    exact splitByte_of_not_mem (hp p (by simp))
  | p :: q :: ps, _, hp => by
    have ih := @splitByte_joinSep sep (q :: ps) (by simp)
      (fun r hr => hp r (List.mem_cons_of_mem p hr))
    simp only [joinSep]
    rw [splitByte_append_sep _ (hp p (by simp)), ih]

theorem mem_splitByte_not_sep {sep : Nat} : ∀ {s : GoStr} {t : GoStr},
    t ∈ splitByte sep s → sep ∉ t
  | [], t, ht => by
    simp only [splitByte, List.mem_singleton] at ht
    simp [ht]
  | c :: cs, t, ht => by
    by_cases hc : c = sep
    · simp only [splitByte, if_pos hc] at ht
      rcases List.mem_cons.1 ht with h | h
      · simp [h]
      · exact mem_splitByte_not_sep h
    · simp only [splitByte, if_neg hc] at ht
      rcases hs : splitByte sep cs with _ | ⟨u, us⟩
      · exact absurd hs (splitByte_ne_nil sep cs)
      · rw [hs] at ht
        rcases List.mem_cons.1 ht with h | h
        · subst h
          intro hm
          rcases List.mem_cons.1 hm with h | h
          · exact hc h.symm
          · exact mem_splitByte_not_sep (hs ▸ List.mem_cons_self u us) h
        · exact mem_splitByte_not_sep (hs ▸ List.mem_cons_of_mem u h)

theorem joinSep_concat_nil {sep : Nat} : ∀ {xs : List GoStr}, xs ≠ [] →
    joinSep sep (xs ++ [[]]) = joinSep sep xs ++ [sep]
  | [], h => absurd rfl h
  | [x], _ => by simp [joinSep]
  | x :: y :: ys, _ => by
    have ih := @joinSep_concat_nil sep (y :: ys) (by simp)
    simp only [List.cons_append, List.append_eq, joinSep] at ih ⊢
    rw [ih]
    simp

theorem isB64Byte_encChar (n : Nat) : isB64Byte (b64encChar n) = true := by
  unfold b64encChar
  split
  · simp only [isB64Byte, Bool.or_eq_true, Bool.and_eq_true,
      decide_eq_true_eq]
    omega
  · split
    · simp only [isB64Byte, Bool.or_eq_true, Bool.and_eq_true,
        decide_eq_true_eq]
      omega
    · split
      · simp only [isB64Byte, Bool.or_eq_true, Bool.and_eq_true,
          decide_eq_true_eq]
        omega
      · split
        · decide
        · decide

theorem b64encode_bytes : ∀ (s : List Nat), ∀ x ∈ b64encode s,
    isB64Byte x = true
  | [] => by simp [b64encode]
  | [a] => by
    simp only [b64encode, List.mem_cons, List.not_mem_nil, or_false]
    rintro x (rfl | rfl | rfl | rfl) <;>
      first
        | exact isB64Byte_encChar _
        | rfl
  | [a, b] => by
    simp only [b64encode, List.mem_cons, List.not_mem_nil, or_false]
    rintro x (rfl | rfl | rfl | rfl) <;>
      first
        | exact isB64Byte_encChar _
        | rfl
  | a :: b :: c :: rest => by
    have ih := b64encode_bytes rest
    simp only [b64encode, List.mem_cons]
    rintro x (rfl | rfl | rfl | rfl | hx) <;>
      first
        | exact isB64Byte_encChar _
        | exact ih x hx

theorem isB64Byte_facts {x : Nat} (h : isB64Byte x = true) :
    x ≠ 34 ∧ x ≠ 39 ∧ x ≠ 10 ∧ x ≠ 13 ∧ x ≠ 44 ∧ x < 256 := by
  simp only [isB64Byte, Bool.or_eq_true, Bool.and_eq_true,
    decide_eq_true_eq] at h
  omega

theorem dropWhile_all_neg {p : Nat → Bool} : ∀ {l : GoStr},
    (∀ x ∈ l, p x = false) → List.dropWhile p l = l
  | [], _ => rfl
  | h :: t, hall => by
    rw [List.dropWhile_cons, if_neg (by simp [hall h (by simp)])]

theorem trimBy_wrap {p : Nat → Bool} (q : Nat) {m : GoStr}
    (hq : p q = true) (hall : ∀ x ∈ m, p x = false) :
    trimBy p (q :: (m ++ [q])) = m := by
  unfold trimBy
  rw [List.dropWhile_cons, if_pos hq]
  cases m with
  | nil => simp [List.dropWhile_cons, hq]
  | cons h t =>
    rw [List.cons_append, List.dropWhile_cons,
      if_neg (by simp [hall h (by simp)])]
    have hrev : (h :: (t ++ [q])).reverse = q :: (t.reverse ++ [h]) := by
      simp
    rw [hrev, List.dropWhile_cons, if_pos hq,
      dropWhile_all_neg (fun x hx => ?_)]
    · simp
    · rcases List.mem_append.1 hx with hx | hx
      · exact hall x (List.mem_cons_of_mem h (List.mem_reverse.1 hx))
      · exact hall x (by simp_all)

theorem eq_of_append_sep_prefix : ∀ (a b r : GoStr) (c : Nat),
    c ∉ a → c ∉ b → (a ++ [c]) <+: (b ++ c :: r) → a = b := by
  intro a
  induction a with
  | nil =>
    intro b r c _ hb hp
    cases b with
    | nil => rfl
    | cons y bs =>
      rw [List.nil_append, List.cons_append] at hp
      obtain ⟨hcy, _⟩ := List.cons_prefix_cons.1 hp
      exact absurd (hcy ▸ List.mem_cons_self y bs) hb
  | cons x as ih =>
    intro b r c ha hb hp
    cases b with
    | nil =>
      rw [List.cons_append, List.nil_append] at hp
      obtain ⟨hxc, _⟩ := List.cons_prefix_cons.1 hp
      exact absurd (by simp [hxc]) ha
    | cons y bs =>
      rw [List.cons_append, List.cons_append] at hp
      obtain ⟨hxy, hp'⟩ := List.cons_prefix_cons.1 hp
      rw [hxy]
      rw [ih bs r c (fun hm => ha (List.mem_cons_of_mem _ hm))
        (fun hm => hb (List.mem_cons_of_mem _ hm)) hp']

theorem not_prefix_stripCR {p l : GoStr} (h : p.isPrefixOf l = false) :
    p.isPrefixOf (stripCR l) = false := by
  rw [← Bool.not_eq_true] at h ⊢
  intro hp
  apply h
  rw [List.isPrefixOf_iff_prefix] at hp ⊢
  refine hp.trans ?_
  unfold stripCR
  split
  · exact List.dropLast_prefix l
  · exact List.prefix_rfl

theorem exportPrefix_not_prefix_hydra {key rest : GoStr}
    (h61 : (61 : Nat) ∉ key) (hne : key ≠ hydraStrKey) :
    (exportPrefix key).isPrefixOf (exportPrefix hydraStrKey ++ rest) = false := by
  rw [← Bool.not_eq_true]
  intro hp
  rw [List.isPrefixOf_iff_prefix] at hp
  apply hne
  refine eq_of_append_sep_prefix key hydraStrKey rest 61 h61 (by decide) ?_
  have h1 : exportPrefix key = strLit "export " ++ (key ++ [61]) := by
    simp [exportPrefix]
  have h2 : exportPrefix hydraStrKey ++ rest =
      strLit "export " ++ (hydraStrKey ++ 61 :: rest) := by
    simp [exportPrefix]
  rw [h1, h2, List.prefix_append_right_inj] at hp
  exact hp

theorem mapSet_apply (m : AppliedMap) (k x : GoStr) :
    mapSet m k x = if x = k then true else m x := rfl

theorem mapDel_apply (m : AppliedMap) (k x : GoStr) :
    mapDel m k x = if x = k then false else m x := rfl

theorem stripCR_concat {l : GoStr} {c : Nat} (h : c ≠ 13) :
    stripCR (l ++ [c]) = l ++ [c] := by
  unfold stripCR
  rw [List.getLast?_concat]
  simp [h]

theorem replaceNLBySpace_no_nl (s : GoStr) : (10 : Nat) ∉ replaceNLBySpace s := by
  intro h
  obtain ⟨c, _, hc⟩ := List.mem_map.1 h
  by_cases h10 : c = 10 <;> simp [h10] at hc

theorem mem_joinSep {sep : Nat} : ∀ {parts : List GoStr} {x : Nat},
    x ∈ joinSep sep parts → x = sep ∨ ∃ p ∈ parts, x ∈ p
  | [], x, h => by simp [joinSep] at h
  | [p], x, h => by
    simp only [joinSep] at h
    exact Or.inr ⟨p, by simp, h⟩
  | p :: q :: ps, x, h => by
    simp only [joinSep, List.mem_append, List.mem_cons] at h
    rcases h with h | h | h
    · exact Or.inr ⟨p, by simp, h⟩
    · exact Or.inl h
    · rcases mem_joinSep h with h | ⟨r, hr, hx⟩
      · exact Or.inl h
      · exact Or.inr ⟨r, List.mem_cons_of_mem p hr, hx⟩

theorem mem_splitLinesGo_no_nl {s l : GoStr} (h : l ∈ splitLinesGo s) :
    (10 : Nat) ∉ l := by
  unfold splitLinesGo at h
  split at h
  · simp at h
  · rw [List.mem_map] at h
    obtain ⟨t, ht, rfl⟩ := h
    have htok : t ∈ splitByte 10 s := by
      split at ht
      · exact (List.dropLast_sublist _).subset ht
      · exact ht
    have hno := mem_splitByte_not_sep htok
    intro hmem
    apply hno
    have hsub : stripCR t ⊆ t := by
      unfold stripCR
      split
      · exact (List.dropLast_sublist t).subset
      · exact fun x hx => hx
    exact hsub hmem

theorem splitLinesGo_joinSep {lines : List GoStr} (h : lines ≠ [])
    (hnl : ∀ l ∈ lines, (10 : Nat) ∉ l) :
    splitLinesGo (joinSep 10 lines ++ [10]) = lines.map stripCR := by
  have hfile : joinSep 10 lines ++ [10] = joinSep 10 (lines ++ [[]]) :=
    (joinSep_concat_nil h).symm
  have hsplit : splitByte 10 (joinSep 10 (lines ++ [[]])) = lines ++ [[]] :=
    splitByte_joinSep (by simp) (by
      intro p hp
      rcases List.mem_append.1 hp with hp | hp
      · exact hnl p hp
      · simp only [List.mem_singleton] at hp
        simp [hp])
  have hne : joinSep 10 lines ++ [10] ≠ [] := by simp
  rw [hfile] at hne
  rw [hfile]
  simp only [splitLinesGo, if_neg hne, hsplit, List.getLast?_concat,
    List.dropLast_concat]
  simp

theorem scanPersistedLines_append {key : GoStr} {ap : AppliedMap} :
    ∀ {skipped : List GoStr} (rest : List GoStr),
    (∀ l ∈ skipped, (exportPrefix key).isPrefixOf l = false) →
    scanPersistedLines key ap (skipped ++ rest) =
      scanPersistedLines key ap rest
  | [], rest, _ => by simp
  | l :: ls, rest, h => by
    rw [List.cons_append]
    have hl := h l (by simp)
    simp only [scanPersistedLines]
    rw [if_neg (by simp [hl])]
    exact scanPersistedLines_append rest
      (fun x hx => h x (List.mem_cons_of_mem l hx))

theorem addDecodedNames_mem : ∀ (ns : List GoStr) (ap : AppliedMap) (x : GoStr),
    addDecodedNames ns ap x = true ↔
      (ap x = true ∨ ∃ n ∈ ns, trimSpace n = x ∧ trimSpace n ≠ [])
  | [], ap, x => by simp [addDecodedNames]
  | n :: ns, ap, x => by
    simp only [addDecodedNames]
    rw [addDecodedNames_mem]
    simp only [List.mem_cons]
    by_cases ht : trimSpace n = []
    · rw [if_pos ht]
      constructor
      · rintro (h | ⟨m, hm, h1, h2⟩)
        · exact Or.inl h
        · exact Or.inr ⟨m, Or.inr hm, h1, h2⟩
      · rintro (h | ⟨m, hm | hm, h1, h2⟩)
        · exact Or.inl h
        · subst hm
          exact absurd ht h2
        · exact Or.inr ⟨m, hm, h1, h2⟩
    · rw [if_neg ht]
      constructor
      · rintro (h | ⟨m, hm, h1, h2⟩)
        · rw [mapSet_apply] at h
          by_cases hx : x = trimSpace n
          · exact Or.inr ⟨n, Or.inl rfl, hx.symm, ht⟩
          · rw [if_neg hx] at h
            exact Or.inl h
        · exact Or.inr ⟨m, Or.inr hm, h1, h2⟩
      · rintro (h | ⟨m, hm | hm, h1, h2⟩)
        · left
          rw [mapSet_apply]
          split
          · rfl
          · exact h
        · subst hm
          left
          rw [mapSet_apply, if_pos h1.symm]
        · exact Or.inr ⟨m, hm, h1, h2⟩

theorem addDecodedNames_mem_of_clean {ns : List GoStr}
    (hok : ∀ n ∈ ns, trimSpace n = n ∧ n ≠ []) (x : GoStr) :
    addDecodedNames ns (fun _ => false) x = true ↔ x ∈ ns := by
  rw [addDecodedNames_mem]
  constructor
  · rintro (h | ⟨m, hm, h1, h2⟩)
    · simp at h
    · obtain ⟨hts, _⟩ := hok m hm
      rw [hts] at h1
      subst h1
      exact hm
  · intro hx
    obtain ⟨hts, hne⟩ := hok x hx
    refine Or.inr ⟨x, hx, hts, ?_⟩
    rw [hts]
    exact hne

theorem keptLines_skip_key {key : GoStr} {f : Option GoStr} :
    ∀ l ∈ keptLines key f, (exportPrefix key).isPrefixOf l = false := by
  intro l hl
  cases f with
  | none => simp [keptLines] at hl
  | some f =>
    obtain ⟨-, hcond⟩ := List.mem_filter.1 hl
    simp only [Bool.and_eq_true, Bool.not_eq_true'] at hcond
    exact hcond.1

theorem keptLines_no_nl {key : GoStr} {f : Option GoStr} :
    ∀ l ∈ keptLines key f, (10 : Nat) ∉ l := by
  intro l hl
  cases f with
  | none => simp [keptLines] at hl
  | some f => exact mem_splitLinesGo_no_nl (List.mem_filter.1 hl).1

theorem exportPrefix_no_nl {key : GoStr} (h : (10 : Nat) ∉ key) :
    (10 : Nat) ∉ exportPrefix key := by
  unfold exportPrefix
  intro hm
  rcases List.mem_append.1 hm with hm | hm
  · rcases List.mem_append.1 hm with hm | hm
    · exact absurd hm (by decide)
    · exact h hm
  · simp at hm

theorem appliedNamesLine_no_nl {key : GoStr} {names : List GoStr}
    (h : (10 : Nat) ∉ key) : (10 : Nat) ∉ appliedNamesLine key names := by
  unfold appliedNamesLine
  intro hm
  rcases List.mem_append.1 hm with hm | hm
  · rcases List.mem_append.1 hm with hm | hm
    · rcases List.mem_append.1 hm with hm | hm
      · exact exportPrefix_no_nl h hm
      · simp at hm
    · exact absurd rfl (isB64Byte_facts (b64encode_bytes _ _ hm)).2.2.1
  · simp at hm

theorem overrideStrLine_no_nl {ovs : List Override} {ap : AppliedMap} :
    (10 : Nat) ∉ overrideStrLine ovs ap := by
  unfold overrideStrLine
  intro hm
  rcases List.mem_append.1 hm with hm | hm
  · rcases List.mem_append.1 hm with hm | hm
    · rcases List.mem_append.1 hm with hm | hm
      · exact exportPrefix_no_nl (by decide) hm
      · simp at hm
    · exact replaceNLBySpace_no_nl _ hm
  · simp at hm

theorem stripCR_appliedNamesLine (key : GoStr) (names : List GoStr) :
    stripCR (appliedNamesLine key names) = appliedNamesLine key names := by
  unfold appliedNamesLine
  exact stripCR_concat (by decide)

theorem stripCR_overrideStrLine (ovs : List Override) (ap : AppliedMap) :
    stripCR (overrideStrLine ovs ap) = overrideStrLine ovs ap := by
  unfold overrideStrLine
  exact stripCR_concat (by decide)

theorem key_prefix_appliedNamesLine (key : GoStr) (names : List GoStr) :
    (exportPrefix key).isPrefixOf (appliedNamesLine key names) = true := by
  rw [List.isPrefixOf_iff_prefix]
  unfold appliedNamesLine
  simp only [List.append_assoc]
  exact List.prefix_append _ _

theorem key_not_prefix_overrideStrLine {key : GoStr}
    (h61 : (61 : Nat) ∉ key) (hne : key ≠ hydraStrKey)
    (ovs : List Override) (ap : AppliedMap) :
    (exportPrefix key).isPrefixOf (overrideStrLine ovs ap) = false := by
  unfold overrideStrLine
  simp only [List.append_assoc]
  exact exportPrefix_not_prefix_hydra h61 hne

/-- Core of the persisted-state round trip: loading from a file just written
by `savePersistedState` yields exactly the applied names present in the
collection.  `key` must be free of newline and `=` and differ from the fixed
override-string key; every applied collection name must be a non-empty,
comma-free, whitespace-trimmed byte string. -/
theorem save_then_load (key : GoStr) (ovs : List Override) (ap : AppliedMap)
    (prior : Option GoStr)
    (hkey10 : (10 : Nat) ∉ key) (hkey61 : (61 : Nat) ∉ key)
    (hkeyhy : key ≠ hydraStrKey)
    (hnames : ∀ o ∈ ovs, ap o.Name = true →
      o.Name ≠ [] ∧ (44 : Nat) ∉ o.Name ∧ trimSpace o.Name = o.Name ∧
        ∀ b ∈ o.Name, b < 256) :
    ∃ m, loadPersistedStateFile key
        (some (savePersistedStateFile key ovs ap prior)) (fun _ => false) =
        Except.ok m ∧
      ∀ x, m x = true ↔ (ap x = true ∧ ∃ o ∈ ovs, o.Name = x) := by
  have hclean : ∀ n ∈ appliedNamesOf ovs ap,
      n ≠ [] ∧ (44 : Nat) ∉ n ∧ trimSpace n = n ∧ ∀ b ∈ n, b < 256 := by
    intro n hn
    obtain ⟨o, ho, rfl⟩ := List.mem_map.1 hn
    obtain ⟨ho1, ho2⟩ := List.mem_filter.1 ho
    exact hnames o ho1 ho2
  have hmemnames : ∀ x, x ∈ appliedNamesOf ovs ap ↔
      (ap x = true ∧ ∃ o ∈ ovs, o.Name = x) := by
    intro x
    constructor
    · intro hx
      obtain ⟨o, ho, rfl⟩ := List.mem_map.1 hx
      obtain ⟨ho1, ho2⟩ := List.mem_filter.1 ho
      exact ⟨ho2, o, ho1, rfl⟩
    · rintro ⟨hap, o, ho, rfl⟩
      exact List.mem_map.2 ⟨o, List.mem_filter.2 ⟨ho, hap⟩, rfl⟩
  by_cases hcase : appliedNamesOf ovs ap = []
  · have hsl : savedLines key ovs ap prior =
        keptLines key prior ++ [overrideStrLine ovs ap] := by
      unfold savedLines
      rw [if_pos hcase]
    have hlines10 : ∀ l ∈ savedLines key ovs ap prior, (10 : Nat) ∉ l := by
      rw [hsl]
      intro l hl
      rcases List.mem_append.1 hl with hl | hl
      · exact keptLines_no_nl l hl
      · simp only [List.mem_singleton] at hl
        subst hl
        exact overrideStrLine_no_nl
    have hsplit : splitLinesGo (savePersistedStateFile key ovs ap prior) =
        (savedLines key ovs ap prior).map stripCR := by
      unfold savePersistedStateFile
      exact splitLinesGo_joinSep (by rw [hsl]; simp) hlines10
    refine ⟨fun _ => false, ?_, ?_⟩
    · show scanPersistedLines key (fun _ => false)
        (splitLinesGo (savePersistedStateFile key ovs ap prior)) = _
      rw [hsplit, hsl, List.map_append]
      rw [scanPersistedLines_append _ (fun l hl => by
        obtain ⟨t, ht, rfl⟩ := List.mem_map.1 hl
        exact not_prefix_stripCR (keptLines_skip_key t ht))]
      simp only [List.map_cons, List.map_nil, stripCR_overrideStrLine]
      simp only [scanPersistedLines]
      rw [if_neg (by simp [key_not_prefix_overrideStrLine hkey61 hkeyhy])]
    · intro x
      constructor
      · intro h
        simp at h
      · rintro ⟨hap, o, ho, rfl⟩
        have hx : o.Name ∈ appliedNamesOf ovs ap := (hmemnames o.Name).2 ⟨hap, o, ho, rfl⟩
        rw [hcase] at hx
        simp at hx
  · have hn0 : appliedNamesOf ovs ap ≠ [] := hcase
    have hjoin_ne : joinSep 44 (appliedNamesOf ovs ap) ≠ [] := by
      rcases hns : appliedNamesOf ovs ap with _ | ⟨n0, ns⟩
      · exact absurd hns hcase
      · rcases ns with _ | ⟨n1, ns⟩
        · have := (hclean n0 (by rw [hns]; simp)).1
          simpa [joinSep] using this
        · simp [joinSep]
    have hjoin_bytes : ∀ b ∈ joinSep 44 (appliedNamesOf ovs ap), b < 256 := by
      intro b hb
      rcases mem_joinSep hb with rfl | ⟨p, hp, hbp⟩
      · omega
      · exact (hclean p hp).2.2.2 b hbp
    have hb64ne := b64encode_ne_nil hjoin_ne
    have hsl : savedLines key ovs ap prior = keptLines key prior ++
        (appliedNamesLine key (appliedNamesOf ovs ap) ::
          [overrideStrLine ovs ap]) := by
      unfold savedLines
      rw [if_neg hcase]
      simp
    have hlines10 : ∀ l ∈ savedLines key ovs ap prior, (10 : Nat) ∉ l := by
      rw [hsl]
      intro l hl
      rcases List.mem_append.1 hl with hl | hl
      · exact keptLines_no_nl l hl
      · rcases List.mem_cons.1 hl with rfl | hl
        · exact appliedNamesLine_no_nl hkey10
        · simp only [List.mem_singleton] at hl
          subst hl
          exact overrideStrLine_no_nl
    have hsplit : splitLinesGo (savePersistedStateFile key ovs ap prior) =
        (savedLines key ovs ap prior).map stripCR := by
      unfold savePersistedStateFile
      exact splitLinesGo_joinSep (by rw [hsl]; simp) hlines10
    refine ⟨addDecodedNames (appliedNamesOf ovs ap) (fun _ => false), ?_, ?_⟩
    · show scanPersistedLines key (fun _ => false)
        (splitLinesGo (savePersistedStateFile key ovs ap prior)) = _
      rw [hsplit, hsl, List.map_append]
      rw [scanPersistedLines_append _ (fun l hl => by
        obtain ⟨t, ht, rfl⟩ := List.mem_map.1 hl
        exact not_prefix_stripCR (keptLines_skip_key t ht))]
      simp only [List.map_cons, List.map_nil, stripCR_appliedNamesLine,
        stripCR_overrideStrLine]
      simp only [scanPersistedLines]
      rw [if_pos (by simp [key_prefix_appliedNamesLine])]
      have hdrop : (appliedNamesLine key (appliedNamesOf ovs ap)).drop
          (exportPrefix key).length =
          34 :: (b64encode (joinSep 44 (appliedNamesOf ovs ap)) ++ [34]) := by
        unfold appliedNamesLine
        simp only [List.append_assoc, List.singleton_append]
        exact List.drop_left _ _
      rw [hdrop]
      have htrim : trimQuotes
          (34 :: (b64encode (joinSep 44 (appliedNamesOf ovs ap)) ++ [34])) =
          b64encode (joinSep 44 (appliedNamesOf ovs ap)) := by
        unfold trimQuotes
        refine trimBy_wrap 34 (by decide) (fun x hx => ?_)
        obtain ⟨h34, h39, -, -, -, -⟩ :=
          isB64Byte_facts (b64encode_bytes _ x hx)
        simp [h34, h39]
      rw [htrim, if_neg hb64ne, b64decode_encode _ hjoin_bytes]
      show Except.ok (addDecodedNames
        (splitComma (joinSep 44 (appliedNamesOf ovs ap))) _) = _
      unfold splitComma
      rw [splitByte_joinSep hn0 (fun p hp => (hclean p hp).2.1)]
    · intro x
      rw [addDecodedNames_mem_of_clean
        (fun n hn => ⟨(hclean n hn).2.2.1, (hclean n hn).1⟩)]
      exact hmemnames x

/-- C1 counterexample: the claim as stated fails.  The name `"a "`
(bytes `[97, 32]`) is non-empty, contains no comma and is present in the
registry, yet loading the file written by encode-and-save of `S = {"a "}`
yields an Applied set in which `"a "` is absent (`loadPersistedState` trims
whitespace from each decoded name), so decode∘encode ≠ id on this S. -/
theorem C1_counterexample :
    ([97, 32] : GoStr) ≠ [] ∧ (44 : Nat) ∉ ([97, 32] : GoStr) ∧
    trailingSpaceOv.Name = [97, 32] ∧ trailingSpaceAp [97, 32] = true ∧
    (match loadPersistedStateFile defaultEnvVarName
        (some (savePersistedStateFile defaultEnvVarName [trailingSpaceOv]
          trailingSpaceAp none))
        (fun _ => false) with
     | Except.ok m => m [97, 32]
     | Except.error _ => true) = false := by
  decide

/-- C1 (amended): for every finite Applied set S of names that are non-empty,
comma-free, invariant under whitespace trimming, and present in the registry,
loading the persisted state from a file produced by encode-and-save of S
yields exactly S, for any prior file content — order of application is
irrelevant because S enters only as a membership function. -/
theorem C1_roundtrip (key : GoStr) (ovs : List Override) (ap : AppliedMap)
    (prior : Option GoStr)
    (hkey10 : (10 : Nat) ∉ key) (hkey61 : (61 : Nat) ∉ key)
    (hkeyhy : key ≠ hydraStrKey)
    (hvalid : ∀ o ∈ ovs, ap o.Name = true →
      o.Name ≠ [] ∧ (44 : Nat) ∉ o.Name ∧ trimSpace o.Name = o.Name ∧
        ∀ b ∈ o.Name, b < 256)
    (hsub : ∀ x, ap x = true → ∃ o ∈ ovs, o.Name = x) :
    ∃ m, loadPersistedStateFile key
        (some (savePersistedStateFile key ovs ap prior)) (fun _ => false) =
        Except.ok m ∧
      ∀ x, m x = ap x := by
  obtain ⟨m, hload, hm⟩ :=
    save_then_load key ovs ap prior hkey10 hkey61 hkeyhy hvalid
  refine ⟨m, hload, fun x => ?_⟩
  cases hax : ap x with
  | false =>
    cases hmx : m x with
    | false => rfl
    | true =>
      have h := (hm x).1 hmx
      rw [hax] at h
      exact absurd h.1 (by simp)
  | true =>
    cases hmx : m x with
    | false =>
      have h := (hm x).2 ⟨hax, hsub x hax⟩
      rw [hmx] at h
      exact absurd h (by simp)
    | true => rfl

/-- Witness for C1 at a concrete input: registry `[alphaOv]`, Applied set
`{alpha}`, default key, no prior file. -/
theorem C1_roundtrip_witness :
    ∃ m, loadPersistedStateFile defaultEnvVarName
        (some (savePersistedStateFile defaultEnvVarName [alphaOv] alphaOnlyAp
          none)) (fun _ => false) = Except.ok m ∧
      ∀ x, m x = alphaOnlyAp x :=
  C1_roundtrip defaultEnvVarName [alphaOv] alphaOnlyAp none
    (by decide) (by decide) (by decide)
    (by decide)
    (fun x hx => ⟨alphaOv, by simp,
      by simpa using
        (eq_of_beq (show (x == strLit "alpha") = true from hx)).symm⟩)

/-- C10 counterexample: with registry `{"b "}` and Applied set
`{"b ", "ghost"}`, the claim says a save followed by a load yields
`S ∩ registry = {"b "}`; in fact the loaded set does not contain `"b "`
(the loader trims the trailing space), so the final clause of the claim
fails as stated. -/
theorem C10_counterexample :
    c10Ap [98, 32] = true ∧ trailingSpaceOvB.Name = [98, 32] ∧
    (match loadPersistedStateFile defaultEnvVarName
        (some (savePersistedStateFile defaultEnvVarName [trailingSpaceOvB]
          c10Ap none))
        (fun _ => false) with
     | Except.ok m => m [98, 32]
     | Except.error _ => true) = false := by
  decide

/-- C10 (amended): the applied-names line is built from the collection, so
every persisted name is an applied registry name (unregistered applied names
are silently omitted); and — provided the applied registry names are
non-empty, comma-free and whitespace-trim-invariant byte strings — a save
followed by a load yields exactly the Applied set intersected with the
registry's names. -/
theorem C10_saved_names_are_registry_names (key : GoStr)
    (ovs : List Override) (ap : AppliedMap) (prior : Option GoStr)
    (hkey10 : (10 : Nat) ∉ key) (hkey61 : (61 : Nat) ∉ key)
    (hkeyhy : key ≠ hydraStrKey)
    (hvalid : ∀ o ∈ ovs, ap o.Name = true →
      o.Name ≠ [] ∧ (44 : Nat) ∉ o.Name ∧ trimSpace o.Name = o.Name ∧
        ∀ b ∈ o.Name, b < 256) :
    (∀ n ∈ appliedNamesOf ovs ap, ap n = true ∧ ∃ o ∈ ovs, o.Name = n) ∧
    ∃ m, loadPersistedStateFile key
        (some (savePersistedStateFile key ovs ap prior)) (fun _ => false) =
        Except.ok m ∧
      ∀ x, m x = true ↔ (ap x = true ∧ ∃ o ∈ ovs, o.Name = x) := by
  constructor
  · intro n hn
    obtain ⟨o, ho, rfl⟩ := List.mem_map.1 hn
    obtain ⟨ho1, ho2⟩ := List.mem_filter.1 ho
    exact ⟨ho2, o, ho1, rfl⟩
  · exact save_then_load key ovs ap prior hkey10 hkey61 hkeyhy hvalid

/-- Witness for C10 at a concrete input: registry `[alphaOv, betaOv]`,
Applied set `{alpha, ghost}`, default key, no prior file. -/
theorem C10_saved_names_witness :
    (∀ n ∈ appliedNamesOf [alphaOv, betaOv] c10WitnessAp,
      c10WitnessAp n = true ∧ ∃ o ∈ [alphaOv, betaOv], o.Name = n) ∧
    ∃ m, loadPersistedStateFile defaultEnvVarName
        (some (savePersistedStateFile defaultEnvVarName [alphaOv, betaOv]
          c10WitnessAp none)) (fun _ => false) = Except.ok m ∧
      ∀ x, m x = true ↔
        (c10WitnessAp x = true ∧ ∃ o ∈ [alphaOv, betaOv], o.Name = x) :=
  C10_saved_names_are_registry_names defaultEnvVarName [alphaOv, betaOv]
    c10WitnessAp none (by decide) (by decide) (by decide) (by decide)

theorem hydra_prefix_overrideStrLine (ovs : List Override) (ap : AppliedMap) :
    (exportPrefix hydraStrKey).isPrefixOf (overrideStrLine ovs ap) = true := by
  rw [List.isPrefixOf_iff_prefix]
  unfold overrideStrLine
  simp only [List.append_assoc]
  exact List.prefix_append _ _

/-- C8: encode-and-save keeps every unmanaged line of the prior file verbatim
and in its original relative order — the written file is exactly the prior
lines minus the managed assignments for the two recognized keys, followed by
a suffix consisting only of managed assignment lines. -/
theorem C8_unmanaged_lines_preserved (key : GoStr) (ovs : List Override)
    (ap : AppliedMap) (prior : GoStr) :
    ∃ managed : List GoStr,
      savePersistedStateFile key ovs ap (some prior) =
        joinSep 10 ((splitLinesGo prior).filter (fun line =>
            !((exportPrefix key).isPrefixOf line) &&
            !((exportPrefix hydraStrKey).isPrefixOf line)) ++ managed) ++ [10] ∧
      ∀ l ∈ managed, ((exportPrefix key).isPrefixOf l ||
        (exportPrefix hydraStrKey).isPrefixOf l) = true := by
  refine ⟨(if appliedNamesOf ovs ap = [] then []
      else [appliedNamesLine key (appliedNamesOf ovs ap)]) ++
      [overrideStrLine ovs ap], ?_, ?_⟩
  · have h1 : keptLines key (some prior) = (splitLinesGo prior).filter
        (fun line => !((exportPrefix key).isPrefixOf line) &&
          !((exportPrefix hydraStrKey).isPrefixOf line)) := rfl
    unfold savePersistedStateFile savedLines
    rw [← h1]
    by_cases hcase : appliedNamesOf ovs ap = []
    · rw [if_pos hcase, if_pos hcase]
      simp
    · rw [if_neg hcase, if_neg hcase]
      simp
  · intro l hl
    rcases List.mem_append.1 hl with hl | hl
    · split at hl
      · simp at hl
      · simp only [List.mem_singleton] at hl
        subst hl
        rw [key_prefix_appliedNamesLine]
        simp
    · simp only [List.mem_singleton] at hl
      subst hl
      rw [hydra_prefix_overrideStrLine]
      simp

theorem filter_map_eq_specFragments (ap : AppliedMap) : ∀ (ovs : List Override),
    (ovs.filter (fun o => ap o.Name)).map (fun o =>
      o.«Type» ++
        (if o.ModulePath = [] then strLit "overrides/" ++ o.Name
         else o.ModulePath) ++ [64] ++ o.Block ++ [61] ++
        (if o.Module = [] then strLit "override" else o.Module)) =
      specOverrideFragments ap ovs
  | [] => rfl
  | o :: os => by
    simp only [List.filter_cons, specOverrideFragments]
    by_cases h : ap o.Name
    · simp only [h, if_true, List.map_cons, filter_map_eq_specFragments ap os]
    · simp only [h, Bool.false_eq_true, if_false,
        filter_map_eq_specFragments ap os]

/-- C2: `buildOverrideString` emits exactly one defaulted fragment per
applied override in collection order, joined by newline; an un-applied
collection yields the empty string; and on the registry `[alpha, beta]` the
claimed concrete string results from applying both, in either toggle
order. -/
theorem C2_buildOverrideString :
    (∀ (ovs : List Override) (ap : AppliedMap),
      buildOverrideString ovs ap = buildOverrideStringSpec ovs ap) ∧
    (∀ (ovs : List Override) (ap : AppliedMap),
      (∀ o ∈ ovs, ap o.Name = false) → buildOverrideString ovs ap = []) ∧
    buildOverrideString [alphaOv, betaOv]
        (mapSet (mapSet (fun _ => false) (strLit "alpha")) (strLit "beta")) =
      strLit "+overrides/alpha@log.level=override\n=overrides/beta@log.level=override" ∧
    buildOverrideString [alphaOv, betaOv]
        (mapSet (mapSet (fun _ => false) (strLit "beta")) (strLit "alpha")) =
      strLit "+overrides/alpha@log.level=override\n=overrides/beta@log.level=override" := by
  refine ⟨?_, ?_, by decide, by decide⟩
  · intro ovs ap
    unfold buildOverrideString buildOverrideStringSpec
    rw [← filter_map_eq_specFragments]
  · intro ovs ap h
    unfold buildOverrideString
    have hf : ovs.filter (fun o => ap o.Name) = [] := by
      rw [List.filter_eq_nil_iff]
      intro o ho
      simp [h o ho]
    rw [hf]
    rfl

/-- Witness for C2's conditional conjunct at a concrete input: nothing
applied on the registry `[alphaOv, betaOv]` yields the empty string. -/
theorem C2_buildOverrideString_witness :
    buildOverrideString [alphaOv, betaOv] (fun _ => false) = [] :=
  C2_buildOverrideString.2.1 [alphaOv, betaOv] (fun _ => false)
    (by decide)

/-- C3 counterexample: startup load of persisted state does not enforce the
invariant.  Loading a file whose applied-names line holds `ghost` against an
empty registry marks `ghost` applied even though no Override carries that
name. -/
theorem C3_counterexample :
    (match loadPersistedStateFile defaultEnvVarName (some ghostFile)
        (fun _ => false) with
     | Except.ok m => m (strLit "ghost")
     | Except.error _ => false) = true ∧
    strLit "ghost" ∉ ([] : List Override).map Override.Name := by
  decide

theorem mem_names_removeFirstByName {name n : GoStr} :
    ∀ {ovs : List Override}, n ∈ ovs.map Override.Name → n ≠ name →
      n ∈ (removeFirstByName name ovs).map Override.Name
  | [], h, _ => by simp at h
  | o :: os, h, hne => by
    unfold removeFirstByName
    rcases List.mem_map.1 h with ⟨o', ho', rfl⟩
    by_cases heq : o.Name = name
    · rw [if_pos heq]
      rcases List.mem_cons.1 ho' with rfl | ho'
      · exact absurd heq hne
      · exact List.mem_map_of_mem _ ho'
    · rw [if_neg heq]
      rcases List.mem_cons.1 ho' with rfl | ho'
      · simp
      · simp only [List.map_cons, List.mem_cons]
        exact Or.inr
          (mem_names_removeFirstByName (List.mem_map_of_mem _ ho') hne)

theorem mem_names_with_target_replaced {pre post : List Override}
    {target target' : Override} {n : GoStr}
    (h : n ∈ (pre ++ target :: post).map Override.Name)
    (hne : n ≠ target.Name) :
    n ∈ (pre ++ target' :: post).map Override.Name := by
  simp only [List.map_append, List.map_cons, List.mem_append,
    List.mem_cons] at h ⊢
  rcases h with h | h | h
  · exact Or.inl h
  · exact absurd h hne
  · exact Or.inr (Or.inr h)

/-- C3 (amended): toggle, delete and rename preserve the invariant that the
Applied set is a subset of the registry's names; startup load of persisted
state does not (see the counterexample), since it applies persisted names
without consulting the registry. -/
theorem C3_applied_subset_preserved :
    (∀ ovs ap panel idx, appliedSubset ovs ap →
      appliedSubset ovs (toggleOverride ovs ap panel idx)) ∧
    (∀ ovs ap sel ok, appliedSubset ovs ap →
      appliedSubset (deleteSelectedOverride ovs ap sel ok).1
        (deleteSelectedOverride ovs ap sel ok).2) ∧
    (∀ pre post target ap newName ok,
      appliedSubset (pre ++ target :: post) ap →
      appliedSubset (renameSelectedOverride pre post target ap newName ok).1
        (renameSelectedOverride pre post target ap newName ok).2) := by
  refine ⟨?_, ?_, ?_⟩
  · intro ovs ap panel idx h n hn
    unfold toggleOverride at hn
    by_cases hp0 : panel = 0
    · rw [if_pos hp0] at hn
      rcases hg : (getAvailableOverrides ovs ap)[idx]? with _ | o
      · rw [hg] at hn
        exact h n hn
      · rw [hg] at hn
        have hn' : mapSet ap o.Name n = true := hn
        rw [mapSet_apply] at hn'
        by_cases hx : n = o.Name
        · subst hx
          have hmem : o ∈ getAvailableOverrides ovs ap :=
            List.getElem?_mem hg
          exact List.mem_map_of_mem _ (List.mem_filter.1 hmem).1
        · rw [if_neg hx] at hn'
          exact h n hn'
    · rw [if_neg hp0] at hn
      by_cases hp1 : panel = 1
      · rw [if_pos hp1] at hn
        rcases hg : (getAppliedOverrides ovs ap)[idx]? with _ | o
        · rw [hg] at hn
          exact h n hn
        · rw [hg] at hn
          have hn' : mapDel ap o.Name n = true := hn
          rw [mapDel_apply] at hn'
          by_cases hx : n = o.Name
          · rw [if_pos hx] at hn'
            exact absurd hn' (by simp)
          · rw [if_neg hx] at hn'
            exact h n hn'
      · rw [if_neg hp1] at hn
        exact h n hn
  · intro ovs ap sel ok h n hn
    have hn' : mapDel ap sel.Name n = true := hn
    rw [mapDel_apply] at hn'
    by_cases hx : n = sel.Name
    · rw [if_pos hx] at hn'
      exact absurd hn' (by simp)
    · rw [if_neg hx] at hn'
      show n ∈ (removeFirstByName sel.Name ovs).map Override.Name
      exact mem_names_removeFirstByName (h n hn') hx
  · intro pre post target ap newName ok h n hn
    unfold renameSelectedOverride at hn ⊢
    by_cases hok : ok = false
    · rw [if_pos hok] at hn ⊢
      exact h n hn
    · rw [if_neg hok] at hn ⊢
      have hsort : ∀ m : GoStr, ∀ l : List Override,
          m ∈ l.map Override.Name →
          m ∈ (sortByName l).map Override.Name := by
        intro m l hm
        exact (((sortByName_perm l).map Override.Name).mem_iff).2 hm
      by_cases hap : ap target.Name = true
      · simp only [hap, if_true] at hn
        rw [mapSet_apply] at hn
        by_cases hx : n = newName
        · subst hx
          refine hsort _ _ ?_
          simp
        · rw [if_neg hx] at hn
          rw [mapDel_apply] at hn
          by_cases hy : n = target.Name
          · rw [if_pos hy] at hn
            exact absurd hn (by simp)
          · rw [if_neg hy] at hn
            exact hsort _ _ (mem_names_with_target_replaced (h n hn) hy)
      · simp only [Bool.not_eq_true] at hap
        simp only [hap, Bool.false_eq_true, if_false] at hn
        by_cases hy : n = target.Name
        · subst hy
          rw [hap] at hn
          exact absurd hn (by simp)
        · exact hsort _ _ (mem_names_with_target_replaced (h n hn) hy)

/-- Witness for C3 at concrete inputs: starting from the empty Applied set
on the one-override registry `[alphaOv]`, the invariant holds and is kept by
toggling the first available entry, by deleting the selected `alphaOv`, and
by a successful rename of `alphaOv` to `gamma`. -/
theorem C3_applied_subset_witness :
    appliedSubset [alphaOv] (fun _ => false) ∧
    appliedSubset [alphaOv] (toggleOverride [alphaOv] (fun _ => false) 0 0) ∧
    appliedSubset (deleteSelectedOverride [alphaOv] (fun _ => false) alphaOv
        true).1
      (deleteSelectedOverride [alphaOv] (fun _ => false) alphaOv true).2 ∧
    appliedSubset (renameSelectedOverride [] [] alphaOv (fun _ => false)
        (strLit "gamma") true).1
      (renameSelectedOverride [] [] alphaOv (fun _ => false)
        (strLit "gamma") true).2 := by
  have hbase : appliedSubset [alphaOv] (fun _ => false) :=
    fun n hn => absurd hn (by simp)
  have hbase2 : appliedSubset ([] ++ alphaOv :: []) (fun _ => false) :=
    fun n hn => absurd hn (by simp)
  exact ⟨hbase,
    C3_applied_subset_preserved.1 [alphaOv] (fun _ => false) 0 0 hbase,
    C3_applied_subset_preserved.2.1 [alphaOv] (fun _ => false) alphaOv true
      hbase,
    C3_applied_subset_preserved.2.2 [] [] alphaOv (fun _ => false)
      (strLit "gamma") true hbase2⟩

/-- C4 counterexample: `createNewOverride` performs no duplicate-name check,
so creating `alpha` when the registry already holds an Override named
`alpha` yields a collection with two entries of that Name. -/
theorem C4_counterexample :
    (createNewOverride [alphaOv] (strLit "/overrides") (strLit "alpha")
        true).countP (fun o => o.Name == strLit "alpha") = 2 := by
  unfold createNewOverride
  rw [if_neg (by simp)]
  have hcnt := (sortByName_perm ([alphaOv] ++ [createdAlphaOv])).countP_eq
    (fun o => o.Name == strLit "alpha")
  have h2 : ([alphaOv] ++ [createdAlphaOv]).countP
      (fun o => o.Name == strLit "alpha") = 2 := by decide
  exact hcnt.trans h2

theorem loadOne_name (dir : GoStr) (yp : YamlParser) (e : DirEntry) :
    (loadOne dir yp e).map Override.Name = none ∨
      (loadOne dir yp e).map Override.Name = some e.name := by
  obtain ⟨nm, d, ac, oc⟩ := e
  cases d
  · exact Or.inl rfl
  · cases ac with
    | none => exact Or.inl rfl
    | some a =>
      right
      simp only [loadOne]
      rcases parseFrontmatter yp a with _ | m <;> rcases oc with _ | c <;> rfl

theorem filterMap_sublist_map {α β : Type} (f : α → β) (g : α → Option β) :
    ∀ (l : List α), (∀ a ∈ l, g a = none ∨ g a = some (f a)) →
      List.Sublist (l.filterMap g) (l.map f)
  | [], _ => by simp
  | a :: l, h => by
    rw [List.filterMap_cons, List.map_cons]
    rcases h a (by simp) with ha | ha
    · rw [ha]
      exact List.Sublist.cons _ (filterMap_sublist_map f g l
        (fun x hx => h x (List.mem_cons_of_mem a hx)))
    · rw [ha]
      exact List.Sublist.cons₂ _ (filterMap_sublist_map f g l
        (fun x hx => h x (List.mem_cons_of_mem a hx)))

theorem removeFirstByName_names_sublist (name : GoStr) :
    ∀ (ovs : List Override),
    List.Sublist ((removeFirstByName name ovs).map Override.Name)
      (ovs.map Override.Name)
  | [] => by simp [removeFirstByName]
  | o :: os => by
    unfold removeFirstByName
    by_cases heq : o.Name = name
    · rw [if_pos heq, List.map_cons]
      exact List.Sublist.cons _ (List.Sublist.refl _)
    · rw [if_neg heq, List.map_cons, List.map_cons]
      exact List.Sublist.cons₂ _ (removeFirstByName_names_sublist name os)

/-- C4 (amended): names are unique after a load whose directory entries have
distinct names, and delete preserves uniqueness, as does create with a name
not already in the registry; but `createNewOverride` performs no duplicate
check, so creating an existing name appends a second entry with that Name
(see the counterexample). -/
theorem C4_name_uniqueness :
    (∀ (yp : YamlParser) (dir : GoStr) (entries : List DirEntry)
        (l : List Override),
      (entries.map DirEntry.name).Nodup →
      loadOverrides yp dir (some entries) [] = Except.ok l →
      (l.map Override.Name).Nodup) ∧
    (∀ (name : GoStr) (ovs : List Override),
      (ovs.map Override.Name).Nodup →
      ((removeFirstByName name ovs).map Override.Name).Nodup) ∧
    (∀ (ovs : List Override) (dir name : GoStr) (ok : Bool),
      (ovs.map Override.Name).Nodup → name ∉ ovs.map Override.Name →
      ((createNewOverride ovs dir name ok).map Override.Name).Nodup) := by
  refine ⟨?_, ?_, ?_⟩
  · intro yp dir entries l hnd hl
    have hl' : (Except.ok (sortByName
        ([] ++ entries.filterMap (loadOne dir yp))) : Except Unit _) =
        Except.ok l := hl
    obtain rfl : sortByName ([] ++ entries.filterMap (loadOne dir yp)) = l :=
      by injection hl'
    have hside : ∀ e ∈ entries, (loadOne dir yp e).map Override.Name = none ∨
        (loadOne dir yp e).map Override.Name = some e.name :=
      fun e _ => loadOne_name dir yp e
    have hsub := filterMap_sublist_map DirEntry.name
      (fun e => (loadOne dir yp e).map Override.Name) entries hside
    have hnd2 : ((entries.filterMap (loadOne dir yp)).map
        Override.Name).Nodup := by
      rw [List.map_filterMap]
      exact hnd.sublist hsub
    have hperm := (sortByName_perm
      ([] ++ entries.filterMap (loadOne dir yp))).map Override.Name
    rw [hperm.nodup_iff]
    simpa using hnd2
  · intro name ovs h
    exact h.sublist (removeFirstByName_names_sublist name ovs)
  · intro ovs dir name ok h hnot
    unfold createNewOverride
    by_cases hok : ok = false
    · rw [if_pos hok]
      exact h
    · rw [if_neg hok]
      have hperm := (sortByName_perm (ovs ++
        [{ Name := name, «Type» := [], Block := [], File := [],
           ModulePath := [], Module := [], Content := [],
           ApplyInfo := applyTemplate,
           FolderPath := joinPath dir name }])).map Override.Name
      rw [hperm.nodup_iff, List.map_append]
      refine List.Nodup.append h (by simp) ?_
      intro x hx hx2
      simp only [List.map_cons, List.map_nil, List.mem_singleton] at hx2
      subst hx2
      exact hnot hx

/-- Witness for C4 at concrete inputs: a load of one well-formed entry gives
distinct names; removing `alpha` from `[alpha, beta]` keeps names distinct;
creating the fresh name `delta` on `[alphaOv]` keeps names distinct. -/
theorem C4_name_uniqueness_witness :
    (∃ l, loadOverrides (fun _ => none) (strLit "/o") (some [alphaEntry]) [] =
        Except.ok l ∧ (l.map Override.Name).Nodup) ∧
    ((removeFirstByName (strLit "alpha") [alphaOv, betaOv]).map
      Override.Name).Nodup ∧
    ((createNewOverride [alphaOv] (strLit "/o") (strLit "delta") true).map
      Override.Name).Nodup :=
  ⟨⟨_, rfl, C4_name_uniqueness.1 (fun _ => none) (strLit "/o") [alphaEntry] _
      (by decide) rfl⟩,
   C4_name_uniqueness.2.1 (strLit "alpha") [alphaOv, betaOv] (by decide),
   C4_name_uniqueness.2.2 [alphaOv] (strLit "/o") (strLit "delta") true
     (by decide) (by decide)⟩

/-- C5: rename performs the disk rename first — on failure nothing in memory
changes; on success the target's `Name` and `FolderPath` are rewritten, the
Applied-set membership migrates from the old to the new name preserving the
applied/unapplied status (other names untouched), and the collection is
re-sorted by `Name`. -/
theorem C5_rename_semantics (pre post : List Override) (target : Override)
    (ap : AppliedMap) (newName : GoStr) :
    renameSelectedOverride pre post target ap newName false =
      (pre ++ target :: post, ap) ∧
    List.Perm (renameSelectedOverride pre post target ap newName true).1
      (pre ++ { target with
        Name := newName,
        FolderPath := joinPath (dirOf target.FolderPath) newName } :: post) ∧
    (renameSelectedOverride pre post target ap newName true).1.Pairwise
      (fun a b => nameLe a b = true) ∧
    (ap target.Name = true →
      (renameSelectedOverride pre post target ap newName true).2 newName =
        true ∧
      (newName ≠ target.Name →
        (renameSelectedOverride pre post target ap newName true).2
          target.Name = false)) ∧
    (ap target.Name = false →
      ∀ x, (renameSelectedOverride pre post target ap newName true).2 x =
        ap x) ∧
    (∀ x, x ≠ newName → x ≠ target.Name →
      (renameSelectedOverride pre post target ap newName true).2 x = ap x) := by
  refine ⟨rfl, sortByName_perm _, sortByName_sorted _, ?_, ?_, ?_⟩
  · intro hap
    constructor
    · show (if ap target.Name = true
          then mapSet (mapDel ap target.Name) newName else ap) newName = true
      rw [if_pos hap, mapSet_apply, if_pos rfl]
    · intro hne
      show (if ap target.Name = true
          then mapSet (mapDel ap target.Name) newName else ap) target.Name =
        false
      rw [if_pos hap, mapSet_apply, if_neg (fun hh => hne hh.symm),
        mapDel_apply, if_pos rfl]
  · intro hap x
    show (if ap target.Name = true
        then mapSet (mapDel ap target.Name) newName else ap) x = ap x
    rw [if_neg (by simp [hap])]
  · intro x hxn hxo
    show (if ap target.Name = true
        then mapSet (mapDel ap target.Name) newName else ap) x = ap x
    by_cases hap : ap target.Name = true
    · rw [if_pos hap, mapSet_apply, if_neg hxn, mapDel_apply, if_neg hxo]
    · rw [if_neg hap]

/-- Witness for C5 at a concrete input: renaming the applied `alphaOv` to
`gamma` with registry `[alphaOv, betaOv]`. -/
theorem C5_rename_witness :
    renameSelectedOverride [] [betaOv] alphaOv alphaOnlyAp (strLit "gamma")
      false = ([] ++ alphaOv :: [betaOv], alphaOnlyAp) ∧
    (renameSelectedOverride [] [betaOv] alphaOv alphaOnlyAp (strLit "gamma")
      true).2 (strLit "gamma") = true ∧
    (renameSelectedOverride [] [betaOv] alphaOv alphaOnlyAp (strLit "gamma")
      true).2 (strLit "alpha") = false ∧
    (renameSelectedOverride [] [betaOv] alphaOv alphaOnlyAp (strLit "gamma")
      true).2 (strLit "beta") = alphaOnlyAp (strLit "beta") :=
  ⟨(C5_rename_semantics [] [betaOv] alphaOv alphaOnlyAp (strLit "gamma")).1,
   ((C5_rename_semantics [] [betaOv] alphaOv alphaOnlyAp
      (strLit "gamma")).2.2.2.1 (by decide)).1,
   ((C5_rename_semantics [] [betaOv] alphaOv alphaOnlyAp
      (strLit "gamma")).2.2.2.1 (by decide)).2 (by decide),
   (C5_rename_semantics [] [betaOv] alphaOv alphaOnlyAp
      (strLit "gamma")).2.2.2.2.2 (strLit "beta") (by decide) (by decide)⟩

/-- C6: the code violates the claim.  `deleteSelectedOverride` discards the
`os.RemoveAll` error value: the function's result does not depend on whether
disk removal succeeded and it has no error channel at all, and even on disk
failure it completes with the Override removed from both the collection and
the Applied set — exactly the silent orphaned-folder outcome the claim (and
the specification, which flags this as a gap) forbids. -/
theorem C6_delete_ignores_disk_failure :
    (∀ (ovs : List Override) (ap : AppliedMap) (sel : Override),
      deleteSelectedOverride ovs ap sel false =
        deleteSelectedOverride ovs ap sel true) ∧
    (∀ (ap : AppliedMap) (sel : Override),
      (deleteSelectedOverride [sel] ap sel false).1 = [] ∧
      (deleteSelectedOverride [sel] ap sel false).2 sel.Name = false) := by
  refine ⟨fun ovs ap sel => rfl, fun ap sel => ⟨?_, ?_⟩⟩
  · show removeFirstByName sel.Name [sel] = []
    unfold removeFirstByName
    rw [if_pos rfl]
  · show mapDel ap sel.Name sel.Name = false
    rw [mapDel_apply, if_pos rfl]

/-- C7: `loadOverrides` errs only when the root listing is unavailable; a
subfolder without `apply.md` is silently excluded (even with a content file
present — see the concrete scenario conjunct); every loaded Override stems
from an entry whose `apply.md` was read; and a frontmatter parse failure
still includes the folder, with the parsed fields left at their zero
values. -/
theorem C7_load_error_handling :
    (∀ (yp : YamlParser) (dir : GoStr) (prev : List Override),
      loadOverrides yp dir none prev = Except.error ()) ∧
    (∀ (yp : YamlParser) (dir : GoStr) (entries : List DirEntry)
        (prev : List Override),
      ∃ l, loadOverrides yp dir (some entries) prev = Except.ok l) ∧
    (∀ (dir : GoStr) (yp : YamlParser) (e : DirEntry),
      e.applyContent = none → loadOne dir yp e = none) ∧
    (∀ (yp : YamlParser) (dir : GoStr) (entries : List DirEntry)
        (prev : List Override) (l : List Override),
      loadOverrides yp dir (some entries) prev = Except.ok l →
      ∀ o ∈ l, o ∈ prev ∨ ∃ e ∈ entries, loadOne dir yp e = some o) ∧
    loadOverrides (fun _ => none) (strLit "/o") (some [contentOnlyEntry]) [] =
      Except.ok [] ∧
    (∀ (dir : GoStr) (yp : YamlParser) (nm a c : GoStr),
      parseFrontmatter yp a = none →
      loadOne dir yp
        { name := nm, isDir := true, applyContent := some a,
          overrideContent := some c } = some
        { Name := nm, «Type» := [], Block := [], File := [],
          ModulePath := [], Module := [], Content := c, ApplyInfo := a,
          FolderPath := joinPath dir nm }) := by
  refine ⟨fun yp dir prev => rfl, fun yp dir entries prev => ⟨_, rfl⟩,
    ?_, ?_, ?_, ?_⟩
  · intro dir yp e h
    obtain ⟨nm, d, ac, oc⟩ := e
    cases d
    · rfl
    · simp only at h
      subst h
      rfl
  · intro yp dir entries prev l hl o ho
    have hl' : (Except.ok (sortByName
        (prev ++ entries.filterMap (loadOne dir yp))) : Except Unit _) =
        Except.ok l := hl
    obtain rfl : sortByName (prev ++ entries.filterMap (loadOne dir yp)) = l :=
      by injection hl'
    have hmem : o ∈ prev ++ entries.filterMap (loadOne dir yp) :=
      (sortByName_perm _).subset ho
    rcases List.mem_append.1 hmem with h | h
    · exact Or.inl h
    · exact Or.inr (List.mem_filterMap.1 h)
  · show Except.ok (sortByName ([] ++
      [contentOnlyEntry].filterMap (loadOne (strLit "/o") (fun _ => none)))) =
      Except.ok ([] : List Override)
    have h1 : [contentOnlyEntry].filterMap
        (loadOne (strLit "/o") (fun _ => none)) = [] := rfl
    rw [h1]
    simp [sortByName, List.mergeSort]
  · intro dir yp nm a c hparse
    simp only [loadOne, hparse]
    rfl

/-- Witness for C7 at concrete inputs: the metadata-less entry is excluded,
and a parse failure keeps the folder with default fields. -/
theorem C7_load_error_handling_witness :
    loadOne (strLit "/o") (fun _ => none) contentOnlyEntry = none ∧
    (∃ l, loadOverrides (fun _ => none) (strLit "/o")
      (some [contentOnlyEntry]) [] = Except.ok l) ∧
    loadOne (strLit "/o") (fun _ => none)
      { name := strLit "n", isDir := true,
        applyContent := some (strLit "---x---\n"),
        overrideContent := some (strLit "y: 2") } = some
      { Name := strLit "n", «Type» := [], Block := [], File := [],
        ModulePath := [], Module := [], Content := strLit "y: 2",
        ApplyInfo := strLit "---x---\n",
        FolderPath := joinPath (strLit "/o") (strLit "n") } :=
  ⟨C7_load_error_handling.2.2.1 (strLit "/o") (fun _ => none) contentOnlyEntry
      rfl,
   C7_load_error_handling.2.1 (fun _ => none) (strLit "/o")
     [contentOnlyEntry] [],
   C7_load_error_handling.2.2.2.2.2 (strLit "/o") (fun _ => none)
     (strLit "n") (strLit "---x---\n") (strLit "y: 2") (by decide)⟩

/-- C9 counterexample: after an external edit that sets `module_path: new`,
`reloadOverride` leaves the in-memory `ModulePath` at `old` (its re-parse
reads only `type`, `block`, `file`), while a fresh parse of the same on-disk
files yields `ModulePath = new` — so reload does not restore all parsed
metadata fields to what a fresh parse would produce. -/
theorem C9_counterexample :
    (reloadOverride c9Yp c9Fs (strLit "n") [c9Ov]).map
      (fun o => o.ModulePath) = [strLit "old"] ∧
    (loadOne (strLit "/o") c9Yp c9Entry).map (fun o => o.ModulePath) =
      some (strLit "new") ∧
    strLit "old" ≠ strLit "new" := by
  decide

/-- C9 (amended): `reloadOverride name` rewrites only the first entry with
that name; it re-reads `ApplyInfo`, `Type`, `Block`, `File` from `apply.md`
and `Content` from `override.yaml`, leaves `ModulePath` and `Module` (and
`Name`, `FolderPath`) at their previous values, never touches the other
entries, preserves the collection's name sequence (hence its sort order),
and takes no Applied-set input at all. -/
theorem C9_reload_semantics (yp : YamlParser) (fs : FileSys) (name : GoStr) :
    (∀ ovs : List Override, (reloadOverride yp fs name ovs).map Override.Name =
      ovs.map Override.Name) ∧
    (∀ o : Override, (reloadOne yp fs o).ModulePath = o.ModulePath ∧
      (reloadOne yp fs o).Module = o.Module ∧
      (reloadOne yp fs o).Name = o.Name ∧
      (reloadOne yp fs o).FolderPath = o.FolderPath) ∧
    (∀ (o : Override) (a : GoStr) (m : Meta),
      fs (joinPath o.FolderPath (strLit "apply.md")) = some a →
      parseFrontmatter yp a = some m →
      (reloadOne yp fs o).«Type» = m.type ∧
      (reloadOne yp fs o).Block = m.block ∧
      (reloadOne yp fs o).File = m.file ∧
      (reloadOne yp fs o).ApplyInfo = a) ∧
    (∀ (o : Override) (c : GoStr),
      fs (joinPath o.FolderPath (strLit "override.yaml")) = some c →
      (reloadOne yp fs o).Content = c) ∧
    (∀ (pre post : List Override) (o : Override),
      (∀ p ∈ pre, p.Name ≠ name) → o.Name = name →
      reloadOverride yp fs name (pre ++ o :: post) =
        pre ++ reloadOne yp fs o :: post) := by
  have hfields : ∀ o : Override, (reloadOne yp fs o).ModulePath = o.ModulePath ∧
      (reloadOne yp fs o).Module = o.Module ∧
      (reloadOne yp fs o).Name = o.Name ∧
      (reloadOne yp fs o).FolderPath = o.FolderPath := by
    intro o
    unfold reloadOne
    rcases ha : fs (joinPath o.FolderPath (strLit "apply.md")) with _ | a
    · simp only [ha]
      rcases hc : fs (joinPath o.FolderPath (strLit "override.yaml"))
          with _ | c <;>
        simp only [hc] <;> simp
    · simp only [ha]
      rcases hm : parseFrontmatter yp a with _ | m <;> simp only [hm] <;>
        rcases hc : fs (joinPath o.FolderPath (strLit "override.yaml"))
          with _ | c <;>
        simp only [hc] <;> simp
  refine ⟨?_, hfields, ?_, ?_, ?_⟩
  · intro ovs
    induction ovs with
    | nil => rfl
    | cons o os ih =>
      unfold reloadOverride
      by_cases h : o.Name = name
      · rw [if_pos h, List.map_cons, List.map_cons, (hfields o).2.2.1]
      · rw [if_neg h, List.map_cons, List.map_cons, ih]
  · intro o a m ha hm
    unfold reloadOne
    simp only [ha, hm]
    rcases hc : fs (joinPath o.FolderPath (strLit "override.yaml"))
        with _ | c <;>
      simp only [hc] <;> simp
  · intro o c hc
    unfold reloadOne
    rcases ha : fs (joinPath o.FolderPath (strLit "apply.md")) with _ | a
    · simp only [ha, hc]
    · rcases hm : parseFrontmatter yp a with _ | m <;> simp only [ha, hm, hc]
  · intro pre post o hpre ho
    induction pre with
    | nil =>
      simp only [List.nil_append, reloadOverride]
      rw [if_pos ho]
    | cons p ps ih =>
      simp only [List.cons_append, reloadOverride]
      rw [if_neg (hpre p (by simp))]
      have h2 := ih (fun q hq => hpre q (List.mem_cons_of_mem p hq))
      simp only [List.append_eq]
      rw [h2]

/-- Witness for C9 at a concrete input: reloading `n` on the `c9` fixtures
refreshes `Type`, `Block`, `File`, `ApplyInfo` and `Content` while keeping
`ModulePath`/`Module`, and only the targeted entry position changes. -/
theorem C9_reload_witness :
    (reloadOne c9Yp c9Fs c9Ov).«Type» = c9Meta.type ∧
    (reloadOne c9Yp c9Fs c9Ov).ApplyInfo = c9Apply ∧
    (reloadOne c9Yp c9Fs c9Ov).Content = strLit "y" ∧
    (reloadOne c9Yp c9Fs c9Ov).ModulePath = c9Ov.ModulePath ∧
    (reloadOverride c9Yp c9Fs (strLit "n") ([] ++ c9Ov :: [alphaOv]) =
      [] ++ reloadOne c9Yp c9Fs c9Ov :: [alphaOv]) :=
  ⟨((C9_reload_semantics c9Yp c9Fs (strLit "n")).2.2.1 c9Ov c9Apply c9Meta
      (by decide) (by decide)).1,
   ((C9_reload_semantics c9Yp c9Fs (strLit "n")).2.2.1 c9Ov c9Apply c9Meta
      (by decide) (by decide)).2.2.2,
   (C9_reload_semantics c9Yp c9Fs (strLit "n")).2.2.2.1 c9Ov (strLit "y")
      (by decide),
   ((C9_reload_semantics c9Yp c9Fs (strLit "n")).2.1 c9Ov).1,
   (C9_reload_semantics c9Yp c9Fs (strLit "n")).2.2.2.2 [] [alphaOv] c9Ov
      (by simp) (by decide)⟩

end LazyHydra
